import Mathlib

/-!
Shallow embedding of the feature-subset search code shared by the notebooks
`Feature_Selection_by_Complete_Enumeration.ipynb`,
`Forward_Stepwise_Feature_Selection.ipynb` and
`Backward_Stepwise_Feature_Selection.ipynb`.

Features are column names (strings).  Scores are Python floats restricted to
the values the comparisons can meet: finite values (modelled as rationals),
`float('Inf')` (the class default of `Solution.mse`) and `float('nan')`.
`Score.lt` is the IEEE-754 `<` used by Python: any comparison with NaN is
false, every finite value is below `+inf`.
-/

/-- A Python float score: NaN, `float('Inf')`, or a finite value (a rational). -/
inductive Score where
  | nan : Score
  | inf : Score
  | val : ℚ → Score
deriving DecidableEq

/-- IEEE-754 strict `<` on scores, as Python evaluates `mse < self.mse`:
comparisons with NaN are false, finite values are below `inf`. -/
def Score.lt : Score → Score → Bool
  | .nan, _ => false
  | _, .nan => false
  | .inf, _ => false
  | .val _, .inf => true
  | .val a, .val b => decide (a < b)

/-- Python truthiness of a float (`bool(x)` is `False` exactly for `0.0`;
NaN and infinities are truthy). -/
def Score.truthy : Score → Bool
  | .nan => true
  | .inf => true
  | .val a => decide (a ≠ 0)

/-- `new = old` or `new` strictly below `old`: the "non-increasing" order on
stored scores. -/
def Score.wle (a b : Score) : Prop := a = b ∨ Score.lt a b = true

/-- The `Solution` class of the notebooks: the Best-Known Solution tracker,
holding the incumbent feature list and its mean-squared error. -/
structure Solution where
  features : List String
  mse : Score
deriving DecidableEq

/-- `Solution.update(self, features, mse)`: if `mse < self.mse` replace the
incumbent and return `True`, else leave the state unchanged and return
`False`.  The returned pair is (state after the call, returned bool). -/
def Solution.update (sol : Solution) (features : List String) (mse : Score) :
    Solution × Bool :=
  if Score.lt mse sol.mse then ({ features := features, mse := mse }, true)
  else (sol, false)

/-- `Solution.__init__(self, y, features=None, mse=None)` of the backward
notebook: `if features and mse:` keeps the passed pair, otherwise the state
falls back to the no-predictor baseline with an empty feature list.  Python
truthiness: `None` and the empty list are falsy, a float is falsy exactly
when it equals `0.0`. -/
def Solution.init (baseline : Score) (features : Option (List String))
    (mse : Option Score) : Solution :=
  match features, mse with
  | some fs, some m =>
      if fs ≠ [] ∧ m.truthy = true then { features := fs, mse := m }
      else { features := [], mse := baseline }
  | _, _ => { features := [], mse := baseline }

/-- A bare sequence of `best.update(features, mse)` calls folded over the
tracker, abstracting over which search strategy produced the candidates. -/
def runUpdates (sol : Solution) (cands : List (List String × Score)) : Solution :=
  cands.foldl (fun b c => (b.update c.1 c.2).1) sol

/-- One candidate evaluation inside a round: build the candidate subset with
`cand`, score it, feed it to `best.update`, and remember the feature as the
round's selection when the update succeeded (`selected_feature = feature`). -/
def roundStep (score : List String → Score) (cand : String → List String)
    (acc : Solution × Option String) (feature : String) : Solution × Option String :=
  let nf := cand feature
  let r := acc.1.update nf (score nf)
  (r.1, if r.2 then some feature else acc.2)

/-- One round of a stepwise search: iterate over the candidate features `fs`
(starting with `selected_feature = None`), updating the tracker on each. -/
def runRound (score : List String → Score) (cand : String → List String)
    (best : Solution) (fs : List String) : Solution × Option String :=
  fs.foldl (roundStep score cand) (best, none)

/-- Result of running the forward stepwise `while` loop with explicit fuel:
`current` is the list of features committed so far (in selection order),
`best` the tracker, `rounds` the number of executed loop iterations, and
`finished` is true when the loop exited through its own condition or a
`break` rather than by exhausting the fuel. -/
structure ForwardResult where
  current : List String
  best : Solution
  rounds : Nat
  finished : Bool
deriving DecidableEq

/-- The forward stepwise loop of `Forward_Stepwise_Feature_Selection.ipynb`:

    while current_features != all_features:
        selected_feature = None
        for feature in set(all_features) - set(current_features):
            new_features = current_features + [feature]
            if best.update(new_features, score(new_features)):
                selected_feature = feature
        if selected_feature: current_features.append(selected_feature)
        else: break

The iteration order of the Python set difference is hash-dependent, so it is
a parameter: `order all current` is the sequence the round iterates over.
`if selected_feature:` is a truthiness test: `None` and the empty string are
falsy and `break` the loop without committing the feature. -/
def forwardLoop (score : List String → Score)
    (order : List String → List String → List String) :
    Nat → List String → List String → Solution → ForwardResult
  | 0, _, current, best => ⟨current, best, 0, false⟩
  | fuel + 1, all, current, best =>
    if current = all then ⟨current, best, 0, true⟩
    else
      let r := runRound score (fun f => current ++ [f]) best (order all current)
      match r.2 with
      | some f =>
        if f ≠ "" then
          let rest := forwardLoop score order fuel all (current ++ [f]) r.1
          ⟨rest.current, rest.best, rest.rounds + 1, rest.finished⟩
        else ⟨current, r.1, 1, true⟩
      | none => ⟨current, r.1, 1, true⟩

/-- Result of the backward stepwise `while` loop with explicit fuel:
`removed` lists the dropped features in removal order. -/
structure BackwardResult where
  current : List String
  best : Solution
  removed : List String
  rounds : Nat
  finished : Bool
deriving DecidableEq

/-- The backward stepwise loop of `Backward_Stepwise_Feature_Selection.ipynb`:

    while len(current_features) > 0:
        removed_feature = None
        for feature in current_features:
            new_features = [f for f in current_features if f != feature]
            if best.update(new_features, score(new_features)):
                removed_feature = feature
        if removed_feature: current_features.remove(removed_feature)
        else: break

The round iterates over `current_features` itself (a list, so the order is
fixed); `list.remove` drops the first occurrence (`List.erase`);
`if removed_feature:` is again a truthiness test. -/
def backwardLoop (score : List String → Score) :
    Nat → List String → Solution → List String → BackwardResult
  | 0, current, best, removed => ⟨current, best, removed, 0, false⟩
  | fuel + 1, current, best, removed =>
    if current = [] then ⟨current, best, removed, 0, true⟩
    else
      let r := runRound score (fun f => current.filter (fun g => g != f)) best current
      match r.2 with
      | some f =>
        if f ≠ "" then
          let rest := backwardLoop score fuel (current.erase f) r.1 (removed ++ [f])
          ⟨rest.current, rest.best, rest.removed, rest.rounds + 1, rest.finished⟩
        else ⟨current, r.1, removed, 1, true⟩
      | none => ⟨current, r.1, removed, 1, true⟩

/-- `itertools.combinations(l, k)`: all length-`k` subsequences of `l`, in the
order `combinations` yields them (those containing the head first). -/
def combinations (l : List String) (k : Nat) : List (List String) :=
  match k, l with
  | 0, _ => [[]]
  | _ + 1, [] => []
  | k + 1, x :: xs => (combinations xs k).map (fun s => x :: s) ++ combinations xs (k + 1)

/-- The complete-enumeration order of
`Feature_Selection_by_Complete_Enumeration.ipynb`: for each
`n_features in range(1, len(features)+1)`, all `combinations(features,
n_features)`.  Its elements are the successive arguments of the oracle. -/
def exhaustiveSubsets (features : List String) : List (List String) :=
  (List.range features.length).flatMap (fun k => combinations features (k + 1))

/-- The complete-enumeration search: fold `best.update(subset, score(subset))`
over every enumerated subset and return the tracker after the last one. -/
def exhaustiveSearch (features : List String) (score : List String → Score)
    (best0 : Solution) : Solution :=
  runUpdates best0 ((exhaustiveSubsets features).map (fun s => (s, score s)))

theorem Score.lt_irrefl (a : Score) : Score.lt a a = false := by
  cases a <;> simp [Score.lt]


theorem Score.lt_asymm {a b : Score} (h : Score.lt a b = true) :
    Score.lt b a = false := by
  cases a <;> cases b <;> simp_all [Score.lt]
  exact le_of_lt h

theorem Score.lt_trans {a b c : Score} (hab : Score.lt a b = true)
    (hbc : Score.lt b c = true) : Score.lt a c = true := by
  cases a <;> cases b <;> cases c <;> simp_all [Score.lt]
  exact hab.trans hbc

theorem Score.wle_trans {a b c : Score} (hab : Score.wle a b) (hbc : Score.wle b c) :
    Score.wle a c := by
  rcases hab with rfl | hab
  · exact hbc
  · rcases hbc with rfl | hbc
    · exact Or.inr hab
    · exact Or.inr (Score.lt_trans hab hbc)

/-- The two possible outcomes of a single `update` call. -/
theorem Solution.update_cases (sol : Solution) (f : List String) (m : Score) :
    (Score.lt m sol.mse = true ∧
        sol.update f m = ({ features := f, mse := m }, true)) ∨
      (Score.lt m sol.mse = false ∧ sol.update f m = (sol, false)) := by
  by_cases hc : Score.lt m sol.mse = true
  · left
    exact ⟨hc, by unfold Solution.update; rw [if_pos hc]⟩
  · right
    refine ⟨by simpa using hc, ?_⟩
    unfold Solution.update
    rw [if_neg hc]

theorem Solution.update_snd_false {sol : Solution} {f : List String} {m : Score}
    (h : (sol.update f m).2 = false) : sol.update f m = (sol, false) := by
  rcases Solution.update_cases sol f m with ⟨-, h1⟩ | ⟨-, h1⟩
  · rw [h1] at h; exact absurd h (by simp)
  · exact h1

theorem Solution.update_snd_true {sol : Solution} {f : List String} {m : Score}
    (h : (sol.update f m).2 = true) :
    sol.update f m = ({ features := f, mse := m }, true) ∧
      Score.lt m sol.mse = true := by
  rcases Solution.update_cases sol f m with ⟨h0, h1⟩ | ⟨-, h1⟩
  · exact ⟨h1, h0⟩
  · rw [h1] at h; exact absurd h (by simp)

theorem Solution.update_mse_wle (sol : Solution) (f : List String) (m : Score) :
    Score.wle (sol.update f m).1.mse sol.mse := by
  rcases Solution.update_cases sol f m with ⟨h0, h1⟩ | ⟨-, h1⟩
  · rw [h1]; exact Or.inr h0
  · rw [h1]; exact Or.inl rfl

theorem runUpdates_nil (sol : Solution) : runUpdates sol [] = sol := rfl

theorem runUpdates_cons (sol : Solution) (c : List String × Score)
    (cs : List (List String × Score)) :
    runUpdates sol (c :: cs) = runUpdates ((sol.update c.1 c.2).1) cs := rfl

theorem runUpdates_append (sol : Solution) (l₁ l₂ : List (List String × Score)) :
    runUpdates sol (l₁ ++ l₂) = runUpdates (runUpdates sol l₁) l₂ := by
  simp [runUpdates, List.foldl_append]

theorem runUpdates_mse_wle (cs : List (List String × Score)) :
    ∀ sol : Solution, Score.wle (runUpdates sol cs).mse sol.mse := by
  induction cs with
  | nil => intro sol; exact Or.inl rfl
  | cons c cs IH =>
    intro sol
    rw [runUpdates_cons]
    exact Score.wle_trans (IH _) (Solution.update_mse_wle sol c.1 c.2)

theorem runUpdates_mse_mem (cs : List (List String × Score)) :
    ∀ sol : Solution,
      (runUpdates sol cs).mse ∈ sol.mse :: cs.map (fun c => c.2) := by
  induction cs with
  | nil => intro sol; simp [runUpdates_nil]
  | cons c cs IH =>
    intro sol
    rw [runUpdates_cons, List.map_cons]
    rcases Solution.update_cases sol c.1 c.2 with ⟨-, h1⟩ | ⟨-, h1⟩
    · rw [h1]
      exact List.mem_cons_of_mem _ (IH ⟨c.1, c.2⟩)
    · rw [h1]
      rcases List.mem_cons.mp (IH sol) with h2 | h2
      · rw [h2]; exact List.mem_cons_self _ _
      · exact List.mem_cons_of_mem _ (List.mem_cons_of_mem _ h2)

theorem runUpdates_mse_lb (cs : List (List String × Score)) :
    ∀ (sol : Solution) (m : Score), m ∈ sol.mse :: cs.map (fun c => c.2) →
      Score.lt m (runUpdates sol cs).mse = false := by
  induction cs with
  | nil =>
    intro sol m hm
    rw [List.map_nil] at hm
    rcases List.mem_cons.mp hm with h | h
    · rw [h, runUpdates_nil]; exact Score.lt_irrefl _
    · exact absurd h (List.not_mem_nil m)
  | cons c cs IH =>
    intro sol m hm
    rw [List.map_cons] at hm
    rw [runUpdates_cons]
    rcases Solution.update_cases sol c.1 c.2 with ⟨h3, h⟩ | ⟨h3, h⟩
    · -- the update succeeded: the stored score becomes c.2, strictly below sol.mse
      rw [h]
      show Score.lt m (runUpdates ⟨c.1, c.2⟩ cs).mse = false
      rcases List.mem_cons.mp hm with hm1 | hm1
      · rw [hm1]
        cases hlt : Score.lt sol.mse (runUpdates ⟨c.1, c.2⟩ cs).mse with
        | false => rfl
        | true =>
          exfalso
          rcases runUpdates_mse_wle cs ⟨c.1, c.2⟩ with heq | hstep
          · rw [heq] at hlt
            have h5 := Score.lt_asymm h3
            rw [hlt] at h5
            exact Bool.noConfusion h5
          · have h4 := Score.lt_trans hlt hstep
            have h5 := Score.lt_asymm h3
            rw [h4] at h5
            exact Bool.noConfusion h5
      · rcases List.mem_cons.mp hm1 with hm2 | hm2
        · rw [hm2]
          exact IH ⟨c.1, c.2⟩ c.2 (List.mem_cons_self _ _)
        · exact IH ⟨c.1, c.2⟩ m (List.mem_cons_of_mem _ hm2)
    · -- the update failed: the state is unchanged and c.2 is not below sol.mse
      rw [h]
      show Score.lt m (runUpdates sol cs).mse = false
      rcases List.mem_cons.mp hm with hm1 | hm1
      · rw [hm1]
        exact IH sol sol.mse (List.mem_cons_self _ _)
      · rcases List.mem_cons.mp hm1 with hm2 | hm2
        · rw [hm2]
          cases hlt : Score.lt c.2 (runUpdates sol cs).mse with
          | false => rfl
          | true =>
            exfalso
            rcases runUpdates_mse_wle cs sol with heq | hstep
            · rw [heq] at hlt
              rw [hlt] at h3
              exact Bool.noConfusion h3
            · have h4 := Score.lt_trans hlt hstep
              rw [h4] at h3
              exact Bool.noConfusion h3
        · exact IH sol m (List.mem_cons_of_mem _ hm2)

/-- The tracker component of a round is exactly a `runUpdates` over the
candidate subsets the round builds. -/
theorem roundFold_fst (score : List String → Score) (cand : String → List String)
    (fs : List String) :
    ∀ (b : Solution) (sel : Option String),
      (fs.foldl (roundStep score cand) (b, sel)).1 =
        runUpdates b (fs.map (fun g => (cand g, score (cand g)))) := by
  induction fs with
  | nil => intro b sel; rfl
  | cons g fs IH =>
    intro b sel
    rw [List.foldl_cons, List.map_cons, runUpdates_cons]
    show (fs.foldl (roundStep score cand)
        ((b.update (cand g) (score (cand g))).1,
          if (b.update (cand g) (score (cand g))).2 then some g else sel)).1 = _
    exact IH _ _

/-- Once a round has recorded a selected feature it never forgets it. -/
theorem roundFold_sel_some (score : List String → Score) (cand : String → List String)
    (fs : List String) :
    ∀ (b : Solution) (f0 : String),
      (fs.foldl (roundStep score cand) (b, some f0)).2 ≠ none := by
  induction fs with
  | nil => intro b f0; simp
  | cons g fs IH =>
    intro b f0
    rw [List.foldl_cons]
    show (fs.foldl (roundStep score cand)
        ((b.update (cand g) (score (cand g))).1,
          if (b.update (cand g) (score (cand g))).2 then some g else some f0)).2 ≠ none
    cases (b.update (cand g) (score (cand g))).2
    · simpa using IH _ f0
    · simpa using IH _ g

/-- A round that ends with `selected_feature = None` never performed a
successful update: tracker and selection are exactly as they started. -/
theorem roundFold_none_fix (score : List String → Score) (cand : String → List String)
    (fs : List String) :
    ∀ b : Solution, (fs.foldl (roundStep score cand) (b, none)).2 = none →
      fs.foldl (roundStep score cand) (b, none) = (b, none) := by
  induction fs with
  | nil => intro b _; rfl
  | cons g fs IH =>
    intro b h
    rw [List.foldl_cons] at h ⊢
    cases hu : (b.update (cand g) (score (cand g))).2 with
    | true =>
      exfalso
      have hstep : roundStep score cand (b, none) g =
          ((b.update (cand g) (score (cand g))).1, some g) := by
        show ((b.update (cand g) (score (cand g))).1,
          if (b.update (cand g) (score (cand g))).2 then some g else none) = _
        rw [hu]
        simp
      rw [hstep] at h
      exact roundFold_sel_some score cand fs _ g h
    | false =>
      have he := Solution.update_snd_false hu
      have hstep : roundStep score cand (b, none) g = (b, none) := by
        show ((b.update (cand g) (score (cand g))).1,
          if (b.update (cand g) (score (cand g))).2 then some g else none) = (b, none)
        rw [he]
        simp
      rw [hstep] at h ⊢
      exact IH b h

/-- The selected feature of a round is one of the iterated features. -/
theorem roundFold_sel_mem (score : List String → Score) (cand : String → List String)
    (fs : List String) :
    ∀ (b : Solution) (sel : Option String) (f : String),
      (fs.foldl (roundStep score cand) (b, sel)).2 = some f →
        f ∈ fs ∨ sel = some f := by
  induction fs with
  | nil => intro b sel f h; exact Or.inr h
  | cons g fs IH =>
    intro b sel f h
    rw [List.foldl_cons] at h
    have h' : (fs.foldl (roundStep score cand)
        ((b.update (cand g) (score (cand g))).1,
          if (b.update (cand g) (score (cand g))).2 then some g else sel)).2 = some f := h
    cases hu : (b.update (cand g) (score (cand g))).2 with
    | true =>
      rw [hu] at h'
      simp only [if_pos] at h'
      rcases IH _ _ _ h' with hf | hf
      · exact Or.inl (List.mem_cons_of_mem _ hf)
      · exact Or.inl (by rw [Option.some_inj.mp hf]; exact List.mem_cons_self _ _)
    | false =>
      rw [hu] at h'
      simp only [Bool.false_eq_true, if_false] at h'
      rcases IH _ _ _ h' with hf | hf
      · exact Or.inl (List.mem_cons_of_mem _ hf)
      · exact Or.inr hf

/-- If no candidate of the round scores strictly below the incumbent, the
whole round is a no-op. -/
theorem roundFold_all_fail (score : List String → Score) (cand : String → List String)
    (fs : List String) :
    ∀ (b : Solution) (sel : Option String),
      (∀ g ∈ fs, Score.lt (score (cand g)) b.mse = false) →
        fs.foldl (roundStep score cand) (b, sel) = (b, sel) := by
  induction fs with
  | nil => intro b sel _; rfl
  | cons g fs IH =>
    intro b sel h
    rw [List.foldl_cons]
    have hg := h g (List.mem_cons_self _ _)
    rcases Solution.update_cases b (cand g) (score (cand g)) with ⟨h1, -⟩ | ⟨-, h2⟩
    · rw [hg] at h1; exact Bool.noConfusion h1
    · have hstep : roundStep score cand (b, sel) g = (b, sel) := by
        show ((b.update (cand g) (score (cand g))).1,
          if (b.update (cand g) (score (cand g))).2 then some g else sel) = (b, sel)
        rw [h2]
        simp
      rw [hstep]
      exact IH b sel (fun x hx => h x (List.mem_cons_of_mem _ hx))

/-- A round either leaves tracker and selection untouched, or ends with a
tracker score strictly below the incumbent's. -/
theorem roundFold_progress (score : List String → Score) (cand : String → List String)
    (fs : List String) :
    ∀ (b : Solution) (sel : Option String),
      fs.foldl (roundStep score cand) (b, sel) = (b, sel) ∨
        Score.lt (fs.foldl (roundStep score cand) (b, sel)).1.mse b.mse = true := by
  induction fs with
  | nil => intro b sel; exact Or.inl rfl
  | cons g fs IH =>
    intro b sel
    rw [List.foldl_cons]
    rcases Solution.update_cases b (cand g) (score (cand g)) with ⟨h1, h2⟩ | ⟨-, h2⟩
    · have hstep : roundStep score cand (b, sel) g =
          ({ features := cand g, mse := score (cand g) }, some g) := by
        show ((b.update (cand g) (score (cand g))).1,
          if (b.update (cand g) (score (cand g))).2 then some g else sel) = _
        rw [h2]
        simp
      rw [hstep]
      right
      rcases IH { features := cand g, mse := score (cand g) } (some g) with heq | hlt
      · rw [heq]; exact h1
      · exact Score.lt_trans hlt h1
    · have hstep : roundStep score cand (b, sel) g = (b, sel) := by
        show ((b.update (cand g) (score (cand g))).1,
          if (b.update (cand g) (score (cand g))).2 then some g else sel) = (b, sel)
        rw [h2]
        simp
      rw [hstep]
      exact IH b sel

/-- A selected feature always comes from the round's iteration list. -/
theorem runRound_sel_mem {score : List String → Score} {cand : String → List String}
    {b : Solution} {fs : List String} {f : String}
    (h : (runRound score cand b fs).2 = some f) : f ∈ fs := by
  rcases roundFold_sel_mem score cand fs b none f h with hf | hf
  · exact hf
  · exact Option.noConfusion hf

/-- A round that selects nothing is a complete no-op on the tracker. -/
theorem runRound_none_fix {score : List String → Score} {cand : String → List String}
    {b : Solution} {fs : List String}
    (h : (runRound score cand b fs).2 = none) : runRound score cand b fs = (b, none) :=
  roundFold_none_fix score cand fs b h

/-- A round that selects a feature strictly improved the tracker score. -/
theorem runRound_sel_lt {score : List String → Score} {cand : String → List String}
    {b : Solution} {fs : List String} {f : String}
    (h : (runRound score cand b fs).2 = some f) :
    Score.lt (runRound score cand b fs).1.mse b.mse = true := by
  rcases roundFold_progress score cand fs b none with heq | hlt
  · have h' : runRound score cand b fs = (b, none) := heq
    rw [h'] at h
    exact Option.noConfusion h
  · exact hlt

theorem combinations_zero (l : List String) : combinations l 0 = [[]] := by
  cases l <;> rfl

theorem combinations_succ_nil (k : Nat) : combinations [] (k + 1) = [] := rfl

theorem combinations_succ_cons (x : String) (xs : List String) (k : Nat) :
    combinations (x :: xs) (k + 1) =
      (combinations xs k).map (fun s => x :: s) ++ combinations xs (k + 1) := rfl

/-- `itertools.combinations(l, k)` yields exactly the length-`k` subsequences
of `l`. -/
theorem combinations_mem (l : List String) : ∀ (k : Nat) (s : List String),
    s ∈ combinations l k ↔ List.Sublist s l ∧ s.length = k := by
  induction l with
  | nil =>
    intro k s
    cases k with
    | zero =>
      rw [combinations_zero]
      constructor
      · intro h
        have hs : s = [] := by simpa using h
        subst hs
        exact ⟨List.nil_sublist _, rfl⟩
      · rintro ⟨-, h2⟩
        have hs : s = [] := List.eq_nil_of_length_eq_zero h2
        subst hs
        simp
    | succ k =>
      rw [combinations_succ_nil]
      constructor
      · intro h
        exact absurd h (List.not_mem_nil s)
      · rintro ⟨h1, h2⟩
        have hs : s = [] := List.sublist_nil.mp h1
        subst hs
        exact absurd h2 (by simp)
  | cons x xs IH =>
    intro k s
    cases k with
    | zero =>
      rw [combinations_zero]
      constructor
      · intro h
        have hs : s = [] := by simpa using h
        subst hs
        exact ⟨List.nil_sublist _, rfl⟩
      · rintro ⟨-, h2⟩
        have hs : s = [] := List.eq_nil_of_length_eq_zero h2
        subst hs
        simp
    | succ k =>
      rw [combinations_succ_cons, List.mem_append, List.mem_map]
      constructor
      · intro h
        rcases h with ⟨t, ht, rfl⟩ | h
        · rcases (IH k t).mp ht with ⟨h1, h2⟩
          exact ⟨List.cons_sublist_cons.mpr h1, by simp [h2]⟩
        · rcases (IH (k + 1) s).mp h with ⟨h1, h2⟩
          exact ⟨h1.cons x, h2⟩
      · rintro ⟨h1, h2⟩
        rcases List.sublist_cons_iff.mp h1 with h | ⟨t, rfl, ht⟩
        · right
          exact (IH (k + 1) s).mpr ⟨h, h2⟩
        · left
          refine ⟨t, (IH k t).mpr ⟨ht, ?_⟩, rfl⟩
          simpa using h2

/-- For a duplicate-free universe, no combination is listed twice. -/
theorem combinations_nodup (l : List String) (hl : l.Nodup) :
    ∀ k : Nat, (combinations l k).Nodup := by
  induction l with
  | nil =>
    intro k
    cases k with
    | zero => rw [combinations_zero]; simp
    | succ k => rw [combinations_succ_nil]; simp
  | cons x xs IH =>
    have hx : x ∉ xs := (List.nodup_cons.mp hl).1
    have hxs : xs.Nodup := (List.nodup_cons.mp hl).2
    intro k
    cases k with
    | zero => rw [combinations_zero]; simp
    | succ k =>
      rw [combinations_succ_cons]
      refine List.Nodup.append ((IH hxs k).map ?_) (IH hxs (k + 1)) ?_
      · intro a b hab
        injection hab
      · intro s hs1 hs2
        rcases List.mem_map.mp hs1 with ⟨t, -, rfl⟩
        have hsub : List.Sublist (x :: t) xs := ((combinations_mem xs (k + 1) _).mp hs2).1
        exact hx (hsub.mem (List.mem_cons_self x t))

/-- The complete enumeration lists exactly the non-empty subsequences of the
feature universe. -/
theorem exhaustiveSubsets_mem (l : List String) (s : List String) :
    s ∈ exhaustiveSubsets l ↔ s ≠ [] ∧ List.Sublist s l := by
  unfold exhaustiveSubsets
  rw [List.mem_flatMap]
  constructor
  · rintro ⟨k, -, hs⟩
    rcases (combinations_mem l (k + 1) s).mp hs with ⟨h1, h2⟩
    refine ⟨?_, h1⟩
    intro hnil
    rw [hnil] at h2
    exact absurd h2 (by simp)
  · rintro ⟨h1, h2⟩
    have hpos : 0 < s.length := List.length_pos.mpr h1
    have hle : s.length ≤ l.length := h2.length_le
    refine ⟨s.length - 1, List.mem_range.mpr (by omega), ?_⟩
    have hk : s.length - 1 + 1 = s.length := by omega
    rw [hk]
    exact (combinations_mem l s.length s).mpr ⟨h2, rfl⟩

/-- For a duplicate-free universe the enumeration has no duplicates. -/
theorem exhaustiveSubsets_nodup (l : List String) (hl : l.Nodup) :
    (exhaustiveSubsets l).Nodup := by
  unfold exhaustiveSubsets
  refine List.nodup_flatMap.mpr ⟨fun k _ => combinations_nodup l hl (k + 1), ?_⟩
  refine (List.pairwise_lt_range _).imp ?_
  intro k₁ k₂ hlt s hs1 hs2
  have h1 := ((combinations_mem l (k₁ + 1) s).mp hs1).2
  have h2 := ((combinations_mem l (k₂ + 1) s).mp hs2).2
  omega

/-- For a duplicate-free universe of size `p`, the enumeration makes exactly
`2 ^ p - 1` oracle calls. -/
theorem exhaustiveSubsets_length (l : List String) (hl : l.Nodup) :
    (exhaustiveSubsets l).length = 2 ^ l.length - 1 := by
  have hR : (List.sublists l).Perm ([] :: exhaustiveSubsets l) := by
    refine (List.perm_ext_iff_of_nodup (List.nodup_sublists.mpr hl) ?_).mpr ?_
    · rw [List.nodup_cons]
      refine ⟨fun h => ?_, exhaustiveSubsets_nodup l hl⟩
      exact ((exhaustiveSubsets_mem l []).mp h).1 rfl
    · intro s
      rw [List.mem_sublists, List.mem_cons, exhaustiveSubsets_mem]
      constructor
      · intro h
        by_cases hnil : s = []
        · exact Or.inl hnil
        · exact Or.inr ⟨hnil, h⟩
      · rintro (rfl | ⟨-, h⟩)
        · exact List.nil_sublist l
        · exact h
  have hlen := hR.length_eq
  rw [List.length_sublists, List.length_cons] at hlen
  omega

theorem forwardLoop_succ (score : List String → Score)
    (order : List String → List String → List String) (fuel : Nat)
    (all current : List String) (best : Solution) :
    forwardLoop score order (fuel + 1) all current best =
      if current = all then ⟨current, best, 0, true⟩
      else
        match (runRound score (fun f => current ++ [f]) best (order all current)).2 with
        | some f =>
          if f ≠ "" then
            ⟨(forwardLoop score order fuel all (current ++ [f])
                (runRound score (fun f => current ++ [f]) best (order all current)).1).current,
              (forwardLoop score order fuel all (current ++ [f])
                (runRound score (fun f => current ++ [f]) best (order all current)).1).best,
              (forwardLoop score order fuel all (current ++ [f])
                (runRound score (fun f => current ++ [f]) best (order all current)).1).rounds + 1,
              (forwardLoop score order fuel all (current ++ [f])
                (runRound score (fun f => current ++ [f]) best (order all current)).1).finished⟩
          else ⟨current,
            (runRound score (fun f => current ++ [f]) best (order all current)).1, 1, true⟩
        | none => ⟨current,
            (runRound score (fun f => current ++ [f]) best (order all current)).1, 1, true⟩ := by
  rfl

theorem forwardLoop_done (score : List String → Score)
    (order : List String → List String → List String) (fuel : Nat)
    (all current : List String) (best : Solution) (h : current = all) :
    forwardLoop score order (fuel + 1) all current best = ⟨current, best, 0, true⟩ := by
  rw [forwardLoop_succ, if_pos h]

theorem forwardLoop_none (score : List String → Score)
    (order : List String → List String → List String) (fuel : Nat)
    (all current : List String) (best : Solution) (h : current ≠ all)
    (hsel : (runRound score (fun f => current ++ [f]) best (order all current)).2 = none) :
    forwardLoop score order (fuel + 1) all current best =
      ⟨current, (runRound score (fun f => current ++ [f]) best (order all current)).1,
        1, true⟩ := by
  rw [forwardLoop_succ, if_neg h, hsel]

theorem forwardLoop_sel_falsy (score : List String → Score)
    (order : List String → List String → List String) (fuel : Nat)
    (all current : List String) (best : Solution) (h : current ≠ all)
    (hsel : (runRound score (fun f => current ++ [f]) best (order all current)).2 =
      some "") :
    forwardLoop score order (fuel + 1) all current best =
      ⟨current, (runRound score (fun f => current ++ [f]) best (order all current)).1,
        1, true⟩ := by
  rw [forwardLoop_succ, if_neg h, hsel]
  simp

theorem forwardLoop_sel (score : List String → Score)
    (order : List String → List String → List String) (fuel : Nat)
    (all current : List String) (best : Solution) (h : current ≠ all) (f : String)
    (hf : f ≠ "")
    (hsel : (runRound score (fun f => current ++ [f]) best (order all current)).2 =
      some f) :
    forwardLoop score order (fuel + 1) all current best =
      ⟨(forwardLoop score order fuel all (current ++ [f])
          (runRound score (fun f => current ++ [f]) best (order all current)).1).current,
        (forwardLoop score order fuel all (current ++ [f])
          (runRound score (fun f => current ++ [f]) best (order all current)).1).best,
        (forwardLoop score order fuel all (current ++ [f])
          (runRound score (fun f => current ++ [f]) best (order all current)).1).rounds + 1,
        (forwardLoop score order fuel all (current ++ [f])
          (runRound score (fun f => current ++ [f]) best (order all current)).1).finished⟩ := by
  rw [forwardLoop_succ, if_neg h, hsel]
  simp [hf]

/-- With fuel `|all| + 1 - |current|` available, the forward loop always
reaches a genuine exit (the `while` guard or a `break`), executing at most
that many rounds, provided each round iterates only over universe features
not yet committed. -/
theorem forwardLoop_terminates (score : List String → Score)
    (order : List String → List String → List String) (all : List String)
    (hord : ∀ cur f, f ∈ order all cur → f ∈ all ∧ f ∉ cur) :
    ∀ (fuel : Nat) (current : List String) (best : Solution),
      current.Nodup → current ⊆ all →
      all.length + 1 ≤ fuel + current.length →
      (forwardLoop score order fuel all current best).finished = true ∧
      (forwardLoop score order fuel all current best).rounds + current.length ≤
        all.length + 1 := by
  intro fuel
  induction fuel with
  | zero =>
    intro current best h1 h2 h3
    exfalso
    have hle := (List.subperm_of_subset h1 h2).length_le
    omega
  | succ fuel IH =>
    intro current best h1 h2 h3
    have hle := (List.subperm_of_subset h1 h2).length_le
    by_cases hca : current = all
    · rw [forwardLoop_done score order fuel all current best hca]
      exact ⟨rfl, by simp [hca]⟩
    · cases hsel : (runRound score (fun f => current ++ [f]) best (order all current)).2 with
      | none =>
        rw [forwardLoop_none score order fuel all current best hca hsel]
        refine ⟨rfl, ?_⟩
        show 1 + current.length ≤ all.length + 1
        omega
      | some f =>
        by_cases hf : f = ""
        · subst hf
          rw [forwardLoop_sel_falsy score order fuel all current best hca hsel]
          refine ⟨rfl, ?_⟩
          show 1 + current.length ≤ all.length + 1
          omega
        · have hmem := runRound_sel_mem hsel
          obtain ⟨hfa, hfc⟩ := hord current f hmem
          have h1' : (current ++ [f]).Nodup := by
            simp [List.nodup_append, h1, hfc]
          have h2' : (current ++ [f]) ⊆ all := by
            intro a ha
            rcases List.mem_append.mp ha with ha' | ha'
            · exact h2 ha'
            · rw [List.mem_singleton.mp ha']
              exact hfa
          have h3' : all.length + 1 ≤ fuel + (current ++ [f]).length := by
            simp only [List.length_append, List.length_cons, List.length_nil]
            omega
          have hrec := IH (current ++ [f])
            (runRound score (fun f => current ++ [f]) best (order all current)).1 h1' h2' h3'
          rw [forwardLoop_sel score order fuel all current best hca f hf hsel]
          refine ⟨hrec.1, ?_⟩
          have hr2 := hrec.2
          simp only [List.length_append, List.length_cons, List.length_nil] at hr2
          show (forwardLoop score order fuel all (current ++ [f])
            (runRound score (fun f => current ++ [f]) best (order all current)).1).rounds
              + 1 + current.length ≤ all.length + 1
          omega

theorem backwardLoop_succ (score : List String → Score) (fuel : Nat)
    (current : List String) (best : Solution) (removed : List String) :
    backwardLoop score (fuel + 1) current best removed =
      if current = [] then ⟨current, best, removed, 0, true⟩
      else
        match (runRound score (fun f => current.filter (fun g => g != f))
            best current).2 with
        | some f =>
          if f ≠ "" then
            ⟨(backwardLoop score fuel (current.erase f)
                (runRound score (fun f => current.filter (fun g => g != f))
                  best current).1 (removed ++ [f])).current,
              (backwardLoop score fuel (current.erase f)
                (runRound score (fun f => current.filter (fun g => g != f))
                  best current).1 (removed ++ [f])).best,
              (backwardLoop score fuel (current.erase f)
                (runRound score (fun f => current.filter (fun g => g != f))
                  best current).1 (removed ++ [f])).removed,
              (backwardLoop score fuel (current.erase f)
                (runRound score (fun f => current.filter (fun g => g != f))
                  best current).1 (removed ++ [f])).rounds + 1,
              (backwardLoop score fuel (current.erase f)
                (runRound score (fun f => current.filter (fun g => g != f))
                  best current).1 (removed ++ [f])).finished⟩
          else ⟨current,
            (runRound score (fun f => current.filter (fun g => g != f)) best current).1,
            removed, 1, true⟩
        | none => ⟨current,
            (runRound score (fun f => current.filter (fun g => g != f)) best current).1,
            removed, 1, true⟩ := by
  rfl

theorem backwardLoop_sel_falsy (score : List String → Score) (fuel : Nat)
    (current : List String) (best : Solution) (removed : List String)
    (h : current ≠ [])
    (hsel : (runRound score (fun f => current.filter (fun g => g != f))
      best current).2 = some "") :
    backwardLoop score (fuel + 1) current best removed =
      ⟨current,
        (runRound score (fun f => current.filter (fun g => g != f)) best current).1,
        removed, 1, true⟩ := by
  rw [backwardLoop_succ, if_neg h, hsel]
  simp

/-- In a linear round with strict-improvement updates, the feature selected is
the FIRST one to reach the round's best score `m`: everything before it is
strictly worse than `m`, nothing after it is strictly better, and the round
ends holding exactly its candidate subset. -/
theorem runRound_first_best (score : List String → Score) (cand : String → List String)
    (best0 : Solution) (pre post : List String) (f0 : String) (m : Score)
    (hm : score (cand f0) = m)
    (hpre : ∀ g ∈ pre, Score.lt m (score (cand g)) = true)
    (hpost : ∀ g ∈ post, Score.lt (score (cand g)) m = false)
    (himp : Score.lt m best0.mse = true) :
    runRound score cand best0 (pre ++ f0 :: post) =
      ({ features := cand f0, mse := m }, some f0) := by
  unfold runRound
  rw [List.foldl_append, List.foldl_cons]
  have hlt1 : Score.lt m (pre.foldl (roundStep score cand) (best0, none)).1.mse = true := by
    rw [roundFold_fst]
    have hmem := runUpdates_mse_mem (pre.map fun g => (cand g, score (cand g))) best0
    rcases List.mem_cons.mp hmem with he | he
    · rw [he]
      exact himp
    · rw [List.map_map] at he
      rcases List.mem_map.mp he with ⟨g, hg, hgeq⟩
      rw [← hgeq]
      exact hpre g hg
  have hstep : roundStep score cand (pre.foldl (roundStep score cand) (best0, none)) f0 =
      ({ features := cand f0, mse := m }, some f0) := by
    show (((pre.foldl (roundStep score cand) (best0, none)).1.update (cand f0)
        (score (cand f0))).1,
      if ((pre.foldl (roundStep score cand) (best0, none)).1.update (cand f0)
        (score (cand f0))).2 then some f0
      else (pre.foldl (roundStep score cand) (best0, none)).2) = _
    rcases Solution.update_cases (pre.foldl (roundStep score cand) (best0, none)).1
        (cand f0) (score (cand f0)) with ⟨-, hu⟩ | ⟨hu, -⟩
    · rw [hu]
      simp [hm]
    · rw [hm, hlt1] at hu
      exact Bool.noConfusion hu
  rw [hstep]
  exact roundFold_all_fail score cand post _ _ (fun g hg => by rw [hpost g hg])

/-- C1: for a duplicate-free universe `F` of size `p ≥ 1`, the complete
enumeration scores exactly `2 ^ p - 1` subsets — each non-empty subset of `F`
exactly once, with no duplicates — and the search is the fold of `update`
over that entire enumeration (sizes `1..p`, combinations in universe order),
returning the tracker only after the last evaluation. -/
theorem exhaustive_completeness (F : List String) (hnd : F.Nodup)
    (hp : 1 ≤ F.length) :
    (exhaustiveSubsets F).length = 2 ^ F.length - 1 ∧
    (exhaustiveSubsets F).Nodup ∧
    (∀ s : List String, s ∈ exhaustiveSubsets F ↔ s ≠ [] ∧ List.Sublist s F) ∧
    (∀ (score : List String → Score) (best0 : Solution),
      exhaustiveSearch F score best0 =
        runUpdates best0 ((exhaustiveSubsets F).map (fun s => (s, score s)))) :=
  ⟨exhaustiveSubsets_length F hnd, exhaustiveSubsets_nodup F hnd,
    fun s => exhaustiveSubsets_mem F s, fun _ _ => rfl⟩

theorem exhaustive_completeness_witness :
    List.Nodup ["a", "b", "c"] ∧ 1 ≤ (["a", "b", "c"] : List String).length ∧
    (exhaustiveSubsets ["a", "b", "c"]).length =
      2 ^ (["a", "b", "c"] : List String).length - 1 ∧
    (["b", "c"] ∈ exhaustiveSubsets ["a", "b", "c"] ↔
      (["b", "c"] : List String) ≠ [] ∧ List.Sublist ["b", "c"] ["a", "b", "c"]) :=
  ⟨by decide, by decide,
    (exhaustive_completeness ["a", "b", "c"] (by decide) (by decide)).1,
    (exhaustive_completeness ["a", "b", "c"] (by decide) (by decide)).2.2.1 ["b", "c"]⟩

/-- C2: `update` returns true and installs the candidate exactly when the
candidate score is strictly below the stored score; otherwise — including on
an exact tie — the tracker is unchanged and `update` returns false. -/
theorem update_spec (sol : Solution) (f : List String) (m : Score) :
    ((sol.update f m).2 = Score.lt m sol.mse) ∧
    (Score.lt m sol.mse = true →
      sol.update f m = ({ features := f, mse := m }, true)) ∧
    (Score.lt m sol.mse = false → sol.update f m = (sol, false)) ∧
    sol.update f sol.mse = (sol, false) := by
  refine ⟨?_, ?_, ?_, ?_⟩
  · rcases Solution.update_cases sol f m with ⟨h1, h2⟩ | ⟨h1, h2⟩ <;> rw [h1, h2]
  · intro h
    rcases Solution.update_cases sol f m with ⟨-, h2⟩ | ⟨h1, -⟩
    · exact h2
    · rw [h] at h1
      exact Bool.noConfusion h1
  · intro h
    rcases Solution.update_cases sol f m with ⟨h1, -⟩ | ⟨-, h2⟩
    · rw [h] at h1
      exact Bool.noConfusion h1
    · exact h2
  · rcases Solution.update_cases sol f sol.mse with ⟨h1, -⟩ | ⟨-, h2⟩
    · rw [Score.lt_irrefl sol.mse] at h1
      exact Bool.noConfusion h1
    · exact h2

theorem update_spec_witness :
    Solution.update ⟨[], Score.val 10⟩ ["a"] (Score.val 3) =
      (⟨["a"], Score.val 3⟩, true) ∧
    Solution.update ⟨[], Score.val 10⟩ ["a"] (Score.val 12) =
      (⟨[], Score.val 10⟩, false) ∧
    Solution.update ⟨[], Score.val 10⟩ ["a"] (Score.val 10) =
      (⟨[], Score.val 10⟩, false) :=
  ⟨(update_spec ⟨[], Score.val 10⟩ ["a"] (Score.val 3)).2.1 (by decide),
    (update_spec ⟨[], Score.val 10⟩ ["a"] (Score.val 12)).2.2.1 (by decide),
    (update_spec ⟨[], Score.val 10⟩ ["a"] (Score.val 10)).2.2.2⟩

/-- C3: over any sequence of `update` calls, the stored score is
non-increasing (here: from any prefix of the sequence to the whole of it),
it is always one of the initial score and the candidate scores seen so far,
and no score seen so far is strictly below it — i.e. it is the minimum of
the initial score and all candidate scores passed to `update`. -/
theorem tracker_monotone_min (sol : Solution)
    (pre suf : List (List String × Score)) :
    Score.wle (runUpdates sol (pre ++ suf)).mse (runUpdates sol pre).mse ∧
    (runUpdates sol (pre ++ suf)).mse ∈
      sol.mse :: (pre ++ suf).map (fun c => c.2) ∧
    ((sol.mse :: (pre ++ suf).map (fun c => c.2)).all
      (fun m => !(Score.lt m (runUpdates sol (pre ++ suf)).mse))) = true := by
  refine ⟨?_, runUpdates_mse_mem _ sol, ?_⟩
  · rw [runUpdates_append]
    exact runUpdates_mse_wle suf _
  · rw [List.all_eq_true]
    intro m hm
    have h := runUpdates_mse_lb (pre ++ suf) sol m hm
    rw [h]
    rfl

/-- C6: a NaN candidate score fails the strict `<` comparison against any
stored score, so `update` leaves the tracker unchanged and returns false. -/
theorem update_nan_noop (sol : Solution) (f : List String) :
    Score.lt Score.nan sol.mse = false ∧ sol.update f Score.nan = (sol, false) := by
  have h : Score.lt Score.nan sol.mse = false := by cases sol.mse <;> rfl
  refine ⟨h, ?_⟩
  rcases Solution.update_cases sol f Score.nan with ⟨h1, -⟩ | ⟨-, h2⟩
  · rw [h] at h1
    exact Bool.noConfusion h1
  · exact h2

/-- C8: a round that converged (selected no feature) left the tracker exactly
as it was, and re-running the same round over the same candidates from that
state again changes nothing and again selects no feature. -/
theorem converged_idempotent (score : List String → Score)
    (cand : String → List String) (best : Solution) (fs : List String)
    (h : (runRound score cand best fs).2 = none) :
    (runRound score cand best fs).1 = best ∧
    runRound score cand ((runRound score cand best fs).1) fs =
      ((runRound score cand best fs).1, none) := by
  have hfix := runRound_none_fix h
  refine ⟨by rw [hfix], ?_⟩
  rw [hfix]
  exact hfix

theorem converged_idempotent_witness :
    (runRound (fun _ => Score.inf) (fun f => [f]) ⟨[], Score.val 1⟩ ["A"]).2 = none ∧
    (runRound (fun _ => Score.inf) (fun f => [f]) ⟨[], Score.val 1⟩ ["A"]).1 =
      ⟨[], Score.val 1⟩ ∧
    runRound (fun _ => Score.inf) (fun f => [f])
      ((runRound (fun _ => Score.inf) (fun f => [f]) ⟨[], Score.val 1⟩ ["A"]).1) ["A"] =
      ((runRound (fun _ => Score.inf) (fun f => [f]) ⟨[], Score.val 1⟩ ["A"]).1, none) :=
  ⟨by decide,
    (converged_idempotent (fun _ => Score.inf) (fun f => [f]) ⟨[], Score.val 1⟩ ["A"]
      (by decide)).1,
    (converged_idempotent (fun _ => Score.inf) (fun f => [f]) ⟨[], Score.val 1⟩ ["A"]
      (by decide)).2⟩

/-- A concrete oracle where the two singleton candidates tie at the round's
best score (3), strictly below the baseline (10). -/
def tieScore : List String → Score := fun s =>
  if s = ["A"] then Score.val 3
  else if s = ["B"] then Score.val 3
  else Score.val 100

/-- A per-round iteration order matching the code's `set(all) - set(current)`
for a concrete run: the universe filtered to the not-yet-committed features. -/
def setDiffOrder : List String → List String → List String := fun a c =>
  a.filter (fun f => !c.contains f)

/-- C4 counterexample: with candidates `A` then `B` tied at the round's best
score 3 (both improving the baseline 10), the round selects `A` — the FIRST
tied-for-best in iteration order — not `B`, the last; the forward loop then
appends `A`. -/
theorem forward_tie_last_cex :
    tieScore ["A"] = tieScore ["B"] ∧
    Score.lt (tieScore ["A"]) (Score.val 10) = true ∧
    (runRound tieScore (fun f => [] ++ [f]) ⟨[], Score.val 10⟩ ["A", "B"]).2 =
      some "A" ∧
    (runRound tieScore (fun f => [] ++ [f]) ⟨[], Score.val 10⟩ ["A", "B"]).2 ≠
      some "B" ∧
    forwardLoop tieScore setDiffOrder 3 ["A", "B"] [] ⟨[], Score.val 10⟩ =
      ⟨["A"], ⟨["A"], Score.val 3⟩, 2, true⟩ := by
  decide

/-- C4 amended: in a round whose candidates are `pre ++ f0 :: post`, if `f0`
is the first feature whose subset reaches the round's best score `m` (all
earlier candidates are strictly worse, no later candidate is strictly
better — ties allowed) and `m` strictly improves the incumbent, then the
feature selected and appended is `f0`: the FIRST evaluated among those
tied-for-best, because strictly-better updates overwrite and ties do not. -/
theorem forward_tie_first (score : List String → Score) (current : List String)
    (best0 : Solution) (pre post : List String) (f0 : String) (m : Score)
    (hm : score (current ++ [f0]) = m)
    (hpre : ∀ g ∈ pre, Score.lt m (score (current ++ [g])) = true)
    (hpost : ∀ g ∈ post, Score.lt (score (current ++ [g])) m = false)
    (himp : Score.lt m best0.mse = true) :
    runRound score (fun f => current ++ [f]) best0 (pre ++ f0 :: post) =
      ({ features := current ++ [f0], mse := m }, some f0) :=
  runRound_first_best score (fun f => current ++ [f]) best0 pre post f0 m hm hpre
    hpost himp

theorem forward_tie_first_witness :
    runRound tieScore (fun f => [] ++ [f]) ⟨[], Score.val 10⟩ ([] ++ "A" :: ["B"]) =
      ({ features := [] ++ ["A"], mse := Score.val 3 }, some "A") :=
  forward_tie_first tieScore [] ⟨[], Score.val 10⟩ [] ["B"] "A" (Score.val 3)
    (by decide) (by decide) (by decide) (by decide)

/-- C5 counterexample: with a non-empty universe `["A"]` whose full-subset
score is exactly `0.0` (falsy in Python), `Solution(y, features, mse)` takes
the `else` branch: the tracker starts at the no-predictor baseline with an
empty feature list, not at the full universe with its score. -/
theorem backward_init_zero_cex :
    Solution.init (Score.val 10) (some ["A"]) (some (Score.val 0)) =
      { features := [], mse := Score.val 10 } ∧
    Solution.init (Score.val 10) (some ["A"]) (some (Score.val 0)) ≠
      { features := ["A"], mse := Score.val 0 } := by
  decide

/-- C5 amended: for every non-empty universe `F`, whenever the full-universe
score is truthy as a Python float (any non-zero value, including infinities
and NaN), the backward tracker is initialised to the full universe and that
score; only a score equal to `0.0` falls back to the baseline. -/
theorem backward_init_full (baseline : Score) (F : List String) (m : Score)
    (hF : F ≠ []) (hm : m.truthy = true) :
    Solution.init baseline (some F) (some m) = { features := F, mse := m } := by
  show (if F ≠ [] ∧ m.truthy = true then ({ features := F, mse := m } : Solution)
    else { features := [], mse := baseline }) = { features := F, mse := m }
  rw [if_pos ⟨hF, hm⟩]

theorem backward_init_full_witness :
    (["A"] : List String) ≠ [] ∧ (Score.val 5).truthy = true ∧
    Solution.init (Score.val 10) (some ["A"]) (some (Score.val 5)) =
      { features := ["A"], mse := Score.val 5 } :=
  ⟨by decide, by decide,
    backward_init_full (Score.val 10) ["A"] (Score.val 5) (by decide) (by decide)⟩

/-- A concrete oracle making the forward loop add `B` first and then `A`, so
the committed list `["B", "A"]` never equals the universe list `["A", "B"]`
and a third (empty) round runs before the `break`. -/
def roundsScore : List String → Score := fun s =>
  if s = ["A"] then Score.val 5
  else if s = ["B"] then Score.val 3
  else if s = ["B", "A"] then Score.val 2
  else Score.val 100

/-- C7 counterexample: a universe of size `p = 2` on which the forward loop
executes 3 loop iterations (rounds): two feature-adding rounds and a final
round over an empty candidate set, because the `while` guard compares the
ordered lists `current_features != all_features`. -/
theorem forward_rounds_cex :
    (["A", "B"] : List String).length = 2 ∧
    (forwardLoop roundsScore setDiffOrder 3 ["A", "B"] []
      ⟨[], Score.val 10⟩).finished = true ∧
    (forwardLoop roundsScore setDiffOrder 3 ["A", "B"] []
      ⟨[], Score.val 10⟩).rounds = 3 ∧
    ¬((forwardLoop roundsScore setDiffOrder 3 ["A", "B"] []
      ⟨[], Score.val 10⟩).rounds ≤ 2) := by
  decide

/-- C7 amended: for a duplicate-free universe of size `p` and any oracle,
the forward loop run with fuel `p + 1` exits through its own guard or a
`break` (never by fuel exhaustion) after at most `p + 1` rounds: at most `p`
rounds that each permanently add one not-yet-present feature, plus possibly
one terminal round; it ends when every feature has been added or when no
addition improved the tracker's best, provided each round iterates only over
universe features not yet committed. -/
theorem forward_terminates (score : List String → Score)
    (order : List String → List String → List String) (all : List String)
    (best0 : Solution) (hnd : all.Nodup)
    (hord : ∀ cur f, f ∈ order all cur → f ∈ all ∧ f ∉ cur) :
    (forwardLoop score order (all.length + 1) all [] best0).finished = true ∧
    (forwardLoop score order (all.length + 1) all [] best0).rounds ≤
      all.length + 1 := by
  have h := forwardLoop_terminates score order all hord (all.length + 1) [] best0
    List.nodup_nil (fun a ha => absurd ha (List.not_mem_nil a)) (by simp)
  refine ⟨h.1, ?_⟩
  have h2 := h.2
  simpa using h2

theorem forward_terminates_witness :
    (forwardLoop roundsScore setDiffOrder 3 ["A", "B"] []
      ⟨[], Score.val 10⟩).finished = true ∧
    (forwardLoop roundsScore setDiffOrder 3 ["A", "B"] []
      ⟨[], Score.val 10⟩).rounds ≤ 3 :=
  forward_terminates roundsScore setDiffOrder ["A", "B"] ⟨[], Score.val 10⟩
    (by decide)
    (fun cur f hf => ⟨(List.mem_filter.mp hf).1, by simpa using (List.mem_filter.mp hf).2⟩)

/-- C9: with a fixed deterministic oracle and a fixed per-round iteration
order — i.e. two runs whose oracles and orders agree on every input — the
forward and backward loops commit the identical sequence of features and
return the identical Best-Known Solution. -/
theorem search_deterministic (score₁ score₂ : List String → Score)
    (order₁ order₂ : List String → List String → List String)
    (hs : ∀ s, score₁ s = score₂ s) (ho : ∀ a c, order₁ a c = order₂ a c)
    (fuel : Nat) (all current : List String) (best : Solution)
    (bcur : List String) (bbest : Solution) (removed : List String) :
    forwardLoop score₁ order₁ fuel all current best =
      forwardLoop score₂ order₂ fuel all current best ∧
    backwardLoop score₁ fuel bcur bbest removed =
      backwardLoop score₂ fuel bcur bbest removed := by
  have h1 : score₁ = score₂ := funext hs
  have h2 : order₁ = order₂ := funext fun a => funext fun c => ho a c
  subst h1
  subst h2
  exact ⟨rfl, rfl⟩

theorem search_deterministic_witness :
    forwardLoop roundsScore setDiffOrder 3 ["A", "B"] [] ⟨[], Score.val 10⟩ =
      forwardLoop roundsScore setDiffOrder 3 ["A", "B"] [] ⟨[], Score.val 10⟩ ∧
    backwardLoop roundsScore 3 ["A", "B"] ⟨["A", "B"], Score.val 9⟩ [] =
      backwardLoop roundsScore 3 ["A", "B"] ⟨["A", "B"], Score.val 9⟩ [] :=
  search_deterministic roundsScore roundsScore setDiffOrder setDiffOrder
    (fun s => rfl) (fun a c => rfl) 3 ["A", "B"] [] ⟨[], Score.val 10⟩
    ["A", "B"] ⟨["A", "B"], Score.val 9⟩ []

/-- A concrete oracle for a forward round in which the empty-string feature's
candidate subset scores best, so the round records `selected_feature = ""`. -/
def emptyNameScore : List String → Score := fun s =>
  if s = [""] then Score.val 1
  else if s = ["X"] then Score.val 5
  else Score.val 100

/-- A concrete oracle for a backward round in which removing the
empty-string feature gives the only improvement, so the round records
`removed_feature = ""`. -/
def emptyNameRemovalScore : List String → Score := fun s =>
  if s = ["X"] then Score.val 5
  else Score.val 100

/-- C10: if a forward (resp. backward) round records the empty string as its
winning feature — a falsy value in Python — the `if selected_feature:`
(resp. `if removed_feature:`) check fails and the loop breaks at the end of
that round without committing the feature, even though the round strictly
improved the tracker (its stored score dropped strictly below the
incumbent's): the check tests the feature value's truthiness, not whether an
improvement occurred. -/
theorem falsy_feature_breaks (score bscore : List String → Score)
    (order : List String → List String → List String) (fuel : Nat)
    (all current : List String) (best : Solution)
    (bcur : List String) (bbest : Solution) (removed : List String)
    (hne : current ≠ all)
    (hsel : (runRound score (fun f => current ++ [f]) best (order all current)).2 =
      some "")
    (hbne : bcur ≠ [])
    (hbsel : (runRound bscore (fun f => bcur.filter (fun g => g != f))
      bbest bcur).2 = some "") :
    forwardLoop score order (fuel + 1) all current best =
      ⟨current, (runRound score (fun f => current ++ [f]) best (order all current)).1,
        1, true⟩ ∧
    Score.lt (runRound score (fun f => current ++ [f]) best
      (order all current)).1.mse best.mse = true ∧
    backwardLoop bscore (fuel + 1) bcur bbest removed =
      ⟨bcur, (runRound bscore (fun f => bcur.filter (fun g => g != f)) bbest bcur).1,
        removed, 1, true⟩ ∧
    Score.lt (runRound bscore (fun f => bcur.filter (fun g => g != f))
      bbest bcur).1.mse bbest.mse = true :=
  ⟨forwardLoop_sel_falsy score order fuel all current best hne hsel,
    runRound_sel_lt hsel,
    backwardLoop_sel_falsy bscore fuel bcur bbest removed hbne hbsel,
    runRound_sel_lt hbsel⟩

theorem falsy_feature_breaks_witness :
    forwardLoop emptyNameScore setDiffOrder 1 ["", "X"] [] ⟨[], Score.val 10⟩ =
      ⟨[], (runRound emptyNameScore (fun f => [] ++ [f]) ⟨[], Score.val 10⟩
        (setDiffOrder ["", "X"] [])).1, 1, true⟩ ∧
    Score.lt (runRound emptyNameScore (fun f => [] ++ [f]) ⟨[], Score.val 10⟩
      (setDiffOrder ["", "X"] [])).1.mse (⟨[], Score.val 10⟩ : Solution).mse = true ∧
    backwardLoop emptyNameRemovalScore 1 ["", "X"] ⟨["", "X"], Score.val 10⟩ [] =
      ⟨["", "X"], (runRound emptyNameRemovalScore
        (fun f => (["", "X"] : List String).filter (fun g => g != f))
        ⟨["", "X"], Score.val 10⟩ ["", "X"]).1, [], 1, true⟩ ∧
    Score.lt (runRound emptyNameRemovalScore
      (fun f => (["", "X"] : List String).filter (fun g => g != f))
      ⟨["", "X"], Score.val 10⟩ ["", "X"]).1.mse
      (⟨["", "X"], Score.val 10⟩ : Solution).mse = true :=
  falsy_feature_breaks emptyNameScore emptyNameRemovalScore setDiffOrder 0
    ["", "X"] [] ⟨[], Score.val 10⟩ ["", "X"] ⟨["", "X"], Score.val 10⟩ []
    (by decide) (by decide) (by decide) (by decide)
